import Mathlib

/-!
Verification of `src/utility.py`: extraction of a YouTube video id from a URL,
transcript retrieval with English preference and translation fallback, and
prompt building.  Python strings are modelled as `List Char`, Python `None` as
`Option`, and exceptions raised by library or service calls as `Except Unit`
values.  The behaviour of the external captions service is an input of the
`get_transcript` model; the calls the function makes to the service are
recorded in an event list so that claims about which calls happen can be
stated.
-/

set_option autoImplicit false

/-- Python substring test `needle in hay` on strings. -/
def inStr (needle : List Char) : List Char → Bool
  | [] => needle.isEmpty
  | c :: rest => needle.isPrefixOf (c :: rest) || inStr needle rest

/-- Split a list at the first occurrence of the character `c`
(Python `split(c, 1)` when `c` occurs). -/
def splitAtFirstChar (c : Char) (l : List Char) : Option (List Char × List Char) :=
  match l.findIdx? (· == c) with
  | none => none
  | some i => some (l.take i, l.drop (i + 1))

/-- Python `str.split(sep)` for a one-character separator. -/
def splitOnChar (sep : Char) : List Char → List (List Char)
  | [] => [[]]
  | c :: rest =>
    if c = sep then [] :: splitOnChar sep rest
    else
      match splitOnChar sep rest with
      | [] => [[c]]
      | h :: t => (c :: h) :: t

/-- Python `str.strip(c)` for a single strip character. -/
def stripChar (c : Char) (l : List Char) : List Char :=
  ((l.dropWhile (· == c)).reverse.dropWhile (· == c)).reverse

/-- Index of the first occurrence of `needle` as a contiguous block, if any. -/
def findSeqIdx (needle : List Char) : List Char → Option Nat
  | [] => if needle.isEmpty then some 0 else none
  | c :: rest =>
    if needle.isPrefixOf (c :: rest) then some 0
    else (findSeqIdx needle rest).map (· + 1)

/-- Fuelled worker for `splitOnSeq`. -/
def splitOnSeqFuel (sep : List Char) : Nat → List Char → List (List Char)
  | 0, l => [l]
  | n + 1, l =>
    match findSeqIdx sep l with
    | none => [l]
    | some i => l.take i :: splitOnSeqFuel sep n (l.drop (i + sep.length))

/-- Python `str.split(sep)` for a multi-character separator. -/
def splitOnSeq (sep l : List Char) : List (List Char) :=
  splitOnSeqFuel sep (l.length + 1) l

/-- Index of the last occurrence of the character `c`, if any (Python `rfind`). -/
def rfindIdx (c : Char) (l : List Char) : Option Nat :=
  (l.reverse.findIdx? (· == c)).map (fun j => l.length - 1 - j)

/-- First index `i` with `start ≤ i` and `l[i] = c`, if any (Python `find(c, start)`). -/
def findIdxFrom (c : Char) (start : Nat) (l : List Char) : Option Nat :=
  ((l.drop start).findIdx? (· == c)).map (· + start)

/-- Result of Python `urllib.parse.urlparse`. -/
structure ParsedUrl where
  scheme : List Char
  netloc : List Char
  path : List Char
  params : List Char
  query : List Char
  fragment : List Char
deriving DecidableEq

/-- Characters allowed in a URL scheme (CPython `scheme_chars`). -/
def scheme_chars : List Char :=
  ("abcdefghijklmnopqrstuvwxyzABCDEFGHIJKLMNOPQRSTUVWXYZ0123456789+-.").data

/-- Model of CPython `urllib.parse.urlsplit`.  The bracket balance check on the
network location is the modelled exception path (CPython raises
`ValueError: Invalid IPv6 URL` there); removal of tab and newline characters
and the NFKC netloc check are not modelled. -/
def urlsplit (url : List Char) : Except Unit ParsedUrl :=
  let schemeRest : List Char × List Char :=
    match url.findIdx? (· == ':') with
    | some i =>
      if 0 < i ∧ (url.take i).all (fun c => scheme_chars.contains c) ∧
          (url.headD ' ').isAlpha then
        ((url.take i).map Char.toLower, url.drop (i + 1))
      else ([], url)
    | none => ([], url)
  let rest := schemeRest.2
  let netlocRest : List Char × List Char :=
    if rest.take 2 = ['/', '/'] then
      ((rest.drop 2).takeWhile (fun c => ¬ (c = '/' ∨ c = '?' ∨ c = '#')),
       (rest.drop 2).dropWhile (fun c => ¬ (c = '/' ∨ c = '?' ∨ c = '#')))
    else ([], rest)
  let netloc := netlocRest.1
  if (netloc.contains '[' ∧ ¬ netloc.contains ']') ∨
      (netloc.contains ']' ∧ ¬ netloc.contains '[') then
    .error ()
  else
    let restFrag : List Char × List Char :=
      match splitAtFirstChar '#' netlocRest.2 with
      | some p => p
      | none => (netlocRest.2, [])
    let pathQuery : List Char × List Char :=
      match splitAtFirstChar '?' restFrag.1 with
      | some p => p
      | none => (restFrag.1, [])
    .ok ⟨schemeRest.1, netloc, pathQuery.1, [], pathQuery.2, restFrag.2⟩

/-- Model of CPython `urllib.parse._splitparams`: separate `;`-parameters of
the last path segment from the path. -/
def splitparams (p : List Char) : List Char × List Char :=
  let i? : Option Nat :=
    match rfindIdx '/' p with
    | some r => findIdxFrom ';' r p
    | none => p.findIdx? (· == ';')
  match i? with
  | none => (p, [])
  | some i => (p.take i, p.drop (i + 1))

/-- Model of CPython `urllib.parse.urlparse`: `urlsplit` plus separation of the
path parameters. -/
def urlparse (url : List Char) : Except Unit ParsedUrl :=
  match urlsplit url with
  | .error e => .error e
  | .ok r => .ok { r with path := (splitparams r.path).1, params := (splitparams r.path).2 }

/-- Hexadecimal digit test. -/
def isHexDig (c : Char) : Bool :=
  c.isDigit || (('a' ≤ c) && (c ≤ 'f')) || (('A' ≤ c) && (c ≤ 'F'))

/-- Value of a hexadecimal digit. -/
def hexVal (c : Char) : Nat :=
  if c.isDigit then c.toNat - ('0').toNat
  else if 'a' ≤ c ∧ c ≤ 'f' then c.toNat - ('a').toNat + 10
  else c.toNat - ('A').toNat + 10

/-- Model of `urllib.parse.unquote`: a percent escape decodes to the escaped
code point.  CPython decodes UTF-8 byte sequences; on the ASCII range the two
agree, and no claim depends on the difference. -/
def unquote : List Char → List Char
  | [] => []
  | '%' :: h :: lo :: rest2 =>
    if isHexDig h && isHexDig lo then
      Char.ofNat (16 * hexVal h + hexVal lo) :: unquote rest2
    else '%' :: unquote (h :: lo :: rest2)
  | c :: rest => c :: unquote rest

/-- Python `str.replace` of plus by space, applied before unquoting in `parse_qsl`. -/
def plusToSpace (l : List Char) : List Char :=
  l.map (fun c => if c = '+' then ' ' else c)

/-- Model of `urllib.parse.parse_qsl` with default arguments: split on the
ampersand, keep only pairs that have an equals sign and a non-empty raw value,
then unquote name and value. -/
def parse_qsl (qs : List Char) : List (List Char × List Char) :=
  (splitOnChar '&' qs).filterMap fun name_value =>
    if name_value = [] then none
    else
      match splitAtFirstChar '=' name_value with
      | none => none
      | some nv =>
        if nv.2 = [] then none
        else some (unquote (plusToSpace nv.1), unquote (plusToSpace nv.2))

/-- One `parse_qs` dictionary step: append the value to an existing key or add
a new key at the end. -/
def qsInsert (d : List (List Char × List (List Char))) (name value : List Char) :
    List (List Char × List (List Char)) :=
  if d.any (fun e => e.1 == name) then
    d.map (fun e => if e.1 == name then (e.1, e.2 ++ [value]) else e)
  else d ++ [(name, [value])]

/-- Model of `urllib.parse.parse_qs`: aggregate the `parse_qsl` pairs into an
insertion-ordered dictionary from names to lists of values. -/
def parse_qs (qs : List Char) : List (List Char × List (List Char)) :=
  (parse_qsl qs).foldl (fun d nv => qsInsert d nv.1 nv.2) []

/-- Dictionary lookup, covering both the membership test and the subscript
of the Python code. -/
def qsLookup (d : List (List Char × List (List Char))) (name : List Char) :
    Option (List (List Char)) :=
  (d.find? (fun e => e.1 == name)).map (·.2)

/-- The character class of the fallback patterns: digits, ASCII letters,
underscore and hyphen. -/
def isIdChar (c : Char) : Bool :=
  c.isAlphanum || c == '_' || c == '-'

/-- Does `l` start with exactly eleven identifier-class characters? -/
def idOk (l : List Char) : Bool :=
  ((l.take 11).length == 11) && (l.take 11).all isIdChar

/-- Leftmost match of the first fallback pattern: `v=` or a slash followed by
eleven identifier characters and anything after; returns the capture group. -/
def searchPat1 : List Char → Option (List Char)
  | [] => none
  | c :: rest =>
    if c == 'v' && (rest.take 1 == ['=']) && idOk (rest.drop 1) then
      some ((rest.drop 1).take 11)
    else if c == '/' && idOk rest then some (rest.take 11)
    else searchPat1 rest

/-- Leftmost match of a pattern consisting of a literal followed by eleven
captured identifier characters; used for the embed and watch patterns. -/
def searchLit (lit : List Char) : List Char → Option (List Char)
  | [] => none
  | c :: rest =>
    if lit.isPrefixOf (c :: rest) && idOk ((c :: rest).drop lit.length) then
      some (((c :: rest).drop lit.length).take 11)
    else searchLit lit rest

/-- The ordered regex fallback of `get_video_id_from_url` (utility.py lines 50-61). -/
def regexFallback (youtube_url : List Char) : Option (List Char) :=
  match searchPat1 youtube_url with
  | some v => some v
  | none =>
    match searchLit ("embed/").data youtube_url with
    | some v => some v
    | none => searchLit ("watch?v=").data youtube_url

/-- Lines 35-44 of `get_video_id_from_url`: the short-link branch and the embed
branch, falling back to the regex patterns when neither applies. -/
def restBranches (parsed_url : ParsedUrl) (youtube_url : List Char) : Option (List Char) :=
  if inStr ("youtu.be").data parsed_url.netloc then
    some ((splitOnChar '/' (stripChar '/' parsed_url.path)).headD [])
  else if inStr ("youtube.com").data parsed_url.netloc &&
      inStr ("/embed/").data parsed_url.path then
    some ((splitOnChar '?'
      ((splitOnChar '/' ((splitOnSeq ("/embed/").data parsed_url.path).getD 1 [])).headD [])).headD [])
  else regexFallback youtube_url

/-- Model of `get_video_id_from_url` (utility.py lines 11-64).  The arm for a
present key with an empty value list mirrors the subscript raising IndexError,
which the handler turns into the regex fallback; `parse_qs` never produces an
empty value list, so that arm is unreachable. -/
def get_video_id_from_url (youtube_url : List Char) : Option (List Char) :=
  match urlparse youtube_url with
  | .error _ => regexFallback youtube_url
  | .ok parsed_url =>
    if inStr ("youtube.com").data parsed_url.netloc then
      match qsLookup (parse_qs parsed_url.query) ("v").data with
      | some (video_id :: _) => some video_id
      | some [] => regexFallback youtube_url
      | none => restBranches parsed_url youtube_url
    else restBranches parsed_url youtube_url

/-- One transcript segment as consumed by `generate_prompt_from_transcript`:
an object carrying a text attribute, a dictionary, or an arbitrary value
rendered by `str`. -/
inductive TranscriptEntry where
  | snippet (text : List Char)
  | dictEntry (entries : List (List Char × List Char))
  | other (rendered : List Char)
deriving DecidableEq

/-- A fetched transcript: an ordered list of segments. -/
abbrev Transcript := List TranscriptEntry

/-- Python dictionary `get` with a default value. -/
def dictGet (entries : List (List Char × List Char)) (key dflt : List Char) : List Char :=
  match entries.find? (fun e => e.1 == key) with
  | some e => e.2
  | none => dflt

/-- One loop iteration of `generate_prompt_from_transcript` (utility.py
lines 140-150): append a space and the segment text to the prompt. -/
def promptAppend (prompt : List Char) (trans : TranscriptEntry) : List Char :=
  match trans with
  | .snippet t => prompt ++ ' ' :: t
  | .dictEntry es => prompt ++ ' ' :: dictGet es ("text").data []
  | .other s => prompt ++ ' ' :: s

/-- The fixed header literal of utility.py line 139. -/
def promptHeader : List Char := ("Summarize the following video:\n").data

/-- Model of `generate_prompt_from_transcript` (utility.py lines 132-154). -/
def generate_prompt_from_transcript (transcript : List TranscriptEntry) : List Char :=
  transcript.foldl promptAppend promptHeader

/-- Exception-transparent variant of one loop iteration: every operation the
loop body performs on a segment (attribute test, dictionary `get` with a
default, `str`) is total in Python, so every arm ends in `Except.ok`. -/
def promptAppendE (prompt : List Char) (trans : TranscriptEntry) : Except Unit (List Char) :=
  match trans with
  | .snippet t => .ok (prompt ++ ' ' :: t)
  | .dictEntry es =>
    match es.find? (fun e => e.1 == ("text").data) with
    | some e => .ok (prompt ++ ' ' :: e.2)
    | none => .ok (prompt ++ ' ' :: [])
  | .other s => .ok (prompt ++ ' ' :: s)

/-- Exception-transparent `generate_prompt_from_transcript`. -/
def generate_prompt_from_transcriptE (transcript : List TranscriptEntry) :
    Except Unit (List Char) :=
  transcript.foldlM promptAppendE promptHeader

/-- Text content of a segment as the specification describes it: the text
attribute when present, else the mapping's text key with the empty default,
else the textual conversion of the value. -/
def segText : TranscriptEntry → List Char
  | .snippet t => t
  | .dictEntry es => dictGet es ("text").data []
  | .other s => s

deriving instance DecidableEq for Except

/-- A transcript track descriptor: language metadata together with the
outcomes the external service would give for a fetch of this track and for a
translation to English followed by a fetch (`Except.error` models a raised
exception at the corresponding call). -/
structure TranscriptInfo where
  language_code : List Char
  language : List Char
  fetch : Except Unit Transcript
  translate : Except Unit (Except Unit Transcript)
deriving DecidableEq

/-- Calls made by `get_transcript` to the external captions service. -/
inductive ApiEvent where
  | listCall
  | fetchCall (i : Nat)
  | translateCall (i : Nat)
  | translatedFetchCall (i : Nat)
deriving DecidableEq

/-- Utility.py line 95: the language code starts with en, or the language name
contains english after lowercasing. -/
def isEnglishInfo (ti : TranscriptInfo) : Bool :=
  ("en").data.isPrefixOf ti.language_code ||
    inStr ("english").data (ti.language.map Char.toLower)

/-- First pass of `get_transcript` (utility.py lines 89-102) together with the
service calls it performs; `i` is the index of the first descriptor. -/
def englishPass : List TranscriptInfo → Nat → Option Transcript × List ApiEvent
  | [], _ => (none, [])
  | ti :: rest, i =>
    if isEnglishInfo ti then
      match ti.fetch with
      | .ok d => (some d, [ApiEvent.fetchCall i])
      | .error _ =>
        let r := englishPass rest (i + 1)
        (r.1, ApiEvent.fetchCall i :: r.2)
    else englishPass rest (i + 1)

/-- Second pass of `get_transcript` (utility.py lines 104-118). -/
def translatePass : List TranscriptInfo → Nat → Option Transcript × List ApiEvent
  | [], _ => (none, [])
  | ti :: rest, i =>
    match ti.translate with
    | .error _ =>
      let r := translatePass rest (i + 1)
      (r.1, ApiEvent.translateCall i :: r.2)
    | .ok (.error _) =>
      let r := translatePass rest (i + 1)
      (r.1, ApiEvent.translateCall i :: ApiEvent.translatedFetchCall i :: r.2)
    | .ok (.ok d) => (some d, [ApiEvent.translateCall i, ApiEvent.translatedFetchCall i])

/-- Model of `get_transcript` (utility.py lines 67-130): the returned value
together with the calls made to the external service.  `video_id` is `none`
for Python `None`; the falsiness test of line 76 also treats the empty string
as absent.  A raised exception in the listing call (modelled by an error
`listResult`) is caught by the outer handlers and becomes `none`. -/
def get_transcript (listResult : Except Unit (List TranscriptInfo))
    (video_id : Option (List Char)) : Option Transcript × List ApiEvent :=
  match video_id with
  | none => (none, [])
  | some v =>
    if v = [] then (none, [])
    else
      match listResult with
      | .error _ => (none, [ApiEvent.listCall])
      | .ok transcript_list =>
        match englishPass transcript_list 0 with
        | (some d, es) => (some d, ApiEvent.listCall :: es)
        | (none, es) =>
          let r := translatePass transcript_list 0
          (r.1, ApiEvent.listCall :: (es ++ r.2))

/-! Helper lemmas about the prompt builder. -/

theorem promptAppend_eq (acc : List Char) (t : TranscriptEntry) :
    promptAppend acc t = acc ++ ' ' :: segText t := by
  cases t <;> rfl

theorem promptAppendE_eq (acc : List Char) (t : TranscriptEntry) :
    promptAppendE acc t = Except.ok (promptAppend acc t) := by
  cases t with
  | snippet t => rfl
  | dictEntry es =>
    simp only [promptAppendE, promptAppend, dictGet]
    cases es.find? (fun e => e.1 == ("text").data) <;> rfl
  | other s => rfl

theorem foldl_promptAppend (ts : List TranscriptEntry) : ∀ acc : List Char,
    ts.foldl promptAppend acc = acc ++ (ts.map (fun t => ' ' :: segText t)).flatten := by
  induction ts with
  | nil => intro acc; simp
  | cons t ts ih =>
    intro acc
    simp only [List.foldl_cons, List.map_cons, List.flatten_cons, ih, promptAppend_eq,
      List.append_assoc]

theorem foldlM_promptAppendE (ts : List TranscriptEntry) : ∀ acc : List Char,
    ts.foldlM promptAppendE acc = Except.ok (ts.foldl promptAppend acc) := by
  induction ts with
  | nil => intro acc; rfl
  | cons t ts ih =>
    intro acc
    simp only [List.foldlM, promptAppendE_eq, List.foldl_cons]
    rw [show ∀ x (f : List Char → Except Unit (List Char)), Except.ok x >>= f = f x from
      fun _ _ => rfl]
    exact ih _

/-! Helper lemmas about the two passes of the transcript fetcher. -/

theorem englishPass_first (pre : List TranscriptInfo) (ti : TranscriptInfo)
    (post : List TranscriptInfo) (d : Transcript)
    (hpre : ∀ t ∈ pre, isEnglishInfo t = true → t.fetch = Except.error ())
    (hti : isEnglishInfo ti = true) (hf : ti.fetch = Except.ok d) :
    ∀ n, (englishPass (pre ++ ti :: post) n).1 = some d := by
  induction pre with
  | nil => intro n; simp [englishPass, hti, hf]
  | cons t pre ih =>
    intro n
    simp only [List.cons_append, englishPass]
    by_cases hE : isEnglishInfo t = true
    · have hfe : t.fetch = Except.error () := hpre t (by simp) hE
      simp only [hE, if_true, hfe]
      exact ih (fun t2 ht2 hE2 => hpre t2 (by simp [ht2]) hE2) (n + 1)
    · simp only [hE, if_false]
      exact ih (fun t2 ht2 hE2 => hpre t2 (by simp [ht2]) hE2) (n + 1)

theorem englishPass_none_iff (tl : List TranscriptInfo) : ∀ n,
    (englishPass tl n).1 = none ↔
      ∀ t ∈ tl, isEnglishInfo t = true → t.fetch = Except.error () := by
  induction tl with
  | nil => intro n; simp [englishPass]
  | cons ti tl ih =>
    intro n
    simp only [englishPass]
    by_cases hE : isEnglishInfo ti = true
    · rw [if_pos hE]
      cases hf : ti.fetch with
      | ok d =>
        constructor
        · intro h; exact absurd h (by simp)
        · intro h
          have := h ti (by simp) hE
          rw [hf] at this
          exact absurd this (by simp)
      | error u =>
        cases u
        simp only []
        rw [ih (n + 1)]
        constructor
        · intro h t ht hEt
          rcases List.mem_cons.mp ht with rfl | ht2
          · exact hf
          · exact h t ht2 hEt
        · intro h t ht hEt
          exact h t (by simp [ht]) hEt
    · rw [if_neg hE]
      rw [ih (n + 1)]
      constructor
      · intro h t ht hEt
        rcases List.mem_cons.mp ht with rfl | ht2
        · exact absurd hEt hE
        · exact h t ht2 hEt
      · intro h t ht hEt
        exact h t (by simp [ht]) hEt

theorem englishPass_events (tl : List TranscriptInfo) : ∀ n,
    ∀ e ∈ (englishPass tl n).2, ∃ k, e = ApiEvent.fetchCall k := by
  induction tl with
  | nil => intro n e he; simp [englishPass] at he
  | cons ti tl ih =>
    intro n e he
    simp only [englishPass] at he
    by_cases hE : isEnglishInfo ti = true
    · rw [if_pos hE] at he
      cases hf : ti.fetch with
      | ok d =>
        rw [hf] at he
        simp at he
        exact ⟨n, he⟩
      | error u =>
        rw [hf] at he
        simp at he
        rcases he with rfl | he2
        · exact ⟨n, rfl⟩
        · exact ih (n + 1) e he2
    · rw [if_neg hE] at he
      exact ih (n + 1) e he

theorem translatePass_first (pre : List TranscriptInfo) (ti : TranscriptInfo)
    (post : List TranscriptInfo) (d : Transcript)
    (hpre : ∀ t ∈ pre, ∀ d2, t.translate ≠ Except.ok (Except.ok d2))
    (hti : ti.translate = Except.ok (Except.ok d)) :
    ∀ n, (translatePass (pre ++ ti :: post) n).1 = some d ∧
      ∀ j ≤ pre.length,
        ApiEvent.translateCall (n + j) ∈ (translatePass (pre ++ ti :: post) n).2 := by
  induction pre with
  | nil =>
    intro n
    constructor
    · simp [translatePass, hti]
    · intro j hj
      have hj0 : j = 0 := Nat.le_zero.mp (by simpa using hj)
      subst hj0
      simp [translatePass, hti]
  | cons t pre ih =>
    intro n
    have hrec := ih (fun t2 ht2 => hpre t2 (by simp [ht2])) (n + 1)
    simp only [List.cons_append, translatePass]
    cases ht : t.translate with
    | error u =>
      refine ⟨hrec.1, ?_⟩
      intro j hj
      cases j with
      | zero => simp
      | succ j2 =>
        have : n + (j2 + 1) = (n + 1) + j2 := by omega
        rw [this]
        exact List.mem_cons_of_mem _ (hrec.2 j2 (by simpa using hj))
    | ok tf =>
      cases tf with
      | error u =>
        refine ⟨hrec.1, ?_⟩
        intro j hj
        cases j with
        | zero => simp
        | succ j2 =>
          have : n + (j2 + 1) = (n + 1) + j2 := by omega
          rw [this]
          exact List.mem_cons_of_mem _ (List.mem_cons_of_mem _ (hrec.2 j2 (by simpa using hj)))
      | ok d2 => exact absurd ht (hpre t (by simp) d2)

theorem translatePass_none (tl : List TranscriptInfo)
    (h : ∀ t ∈ tl, ∀ d, t.translate ≠ Except.ok (Except.ok d)) :
    ∀ n, (translatePass tl n).1 = none := by
  induction tl with
  | nil => intro n; rfl
  | cons ti tl ih =>
    intro n
    simp only [translatePass]
    cases ht : ti.translate with
    | error u => exact ih (fun t2 ht2 => h t2 (by simp [ht2])) (n + 1)
    | ok tf =>
      cases tf with
      | error u => exact ih (fun t2 ht2 => h t2 (by simp [ht2])) (n + 1)
      | ok d2 => exact absurd ht (h ti (by simp) d2)

/-! Non-emptiness lemmas for the extractor. -/

theorem idOk_take_ne_nil (l : List Char) (h : idOk l = true) : l.take 11 ≠ [] := by
  intro hnil
  simp only [idOk, Bool.and_eq_true, beq_iff_eq] at h
  rw [hnil] at h
  simp at h

theorem searchPat1_ne_nil : ∀ l s, searchPat1 l = some s → s ≠ [] := by
  intro l
  induction l with
  | nil => intro s h; simp [searchPat1] at h
  | cons c rest ih =>
    intro s h
    simp only [searchPat1] at h
    by_cases h1 : (c == 'v' && (rest.take 1 == ['=']) && idOk (rest.drop 1)) = true
    · rw [if_pos h1] at h
      simp only [Bool.and_eq_true] at h1
      cases h
      exact idOk_take_ne_nil _ h1.2
    · rw [if_neg h1] at h
      by_cases h2 : (c == '/' && idOk rest) = true
      · rw [if_pos h2] at h
        simp only [Bool.and_eq_true] at h2
        cases h
        exact idOk_take_ne_nil _ h2.2
      · rw [if_neg h2] at h
        exact ih s h

theorem searchLit_ne_nil (lit : List Char) : ∀ l s, searchLit lit l = some s → s ≠ [] := by
  intro l
  induction l with
  | nil => intro s h; simp [searchLit] at h
  | cons c rest ih =>
    intro s h
    simp only [searchLit] at h
    by_cases h1 : (lit.isPrefixOf (c :: rest) && idOk ((c :: rest).drop lit.length)) = true
    · rw [if_pos h1] at h
      simp only [Bool.and_eq_true] at h1
      cases h
      exact idOk_take_ne_nil _ h1.2
    · rw [if_neg h1] at h
      exact ih s h

theorem regexFallback_ne_nil (url s : List Char) (h : regexFallback url = some s) :
    s ≠ [] := by
  simp only [regexFallback] at h
  cases h1 : searchPat1 url with
  | some v =>
    rw [h1] at h
    cases h
    exact searchPat1_ne_nil url s h1
  | none =>
    rw [h1] at h
    cases h2 : searchLit (("embed/").data) url with
    | some v =>
      rw [h2] at h
      cases h
      exact searchLit_ne_nil _ url s h2
    | none =>
      rw [h2] at h
      exact searchLit_ne_nil _ url s h

/-! Non-emptiness of query parameter values. -/

theorem unquote_ne_nil : ∀ l : List Char, l ≠ [] → unquote l ≠ [] := by
  intro l h
  cases l with
  | nil => exact absurd rfl h
  | cons c rest =>
    rw [unquote.eq_def]
    split
    · simp_all
    · split <;> simp
    · simp

theorem plusToSpace_ne_nil (l : List Char) (h : l ≠ []) : plusToSpace l ≠ [] := by
  simpa [plusToSpace] using h

theorem parse_qsl_value_ne_nil (qs : List Char) :
    ∀ p ∈ parse_qsl qs, p.2 ≠ [] := by
  intro p hp
  simp only [parse_qsl, List.mem_filterMap] at hp
  obtain ⟨nv, _, hf⟩ := hp
  by_cases h1 : nv = []
  · rw [if_pos h1] at hf; cases hf
  · rw [if_neg h1] at hf
    cases hs : splitAtFirstChar '=' nv with
    | none => rw [hs] at hf; cases hf
    | some pr =>
      rw [hs] at hf
      have hf2 : (if pr.2 = [] then none
          else some (unquote (plusToSpace pr.1), unquote (plusToSpace pr.2))) = some p := hf
      by_cases h2 : pr.2 = []
      · rw [if_pos h2] at hf2; cases hf2
      · rw [if_neg h2] at hf2
        cases hf2
        exact unquote_ne_nil _ (plusToSpace_ne_nil _ h2)

/-- Invariant of the `parse_qs` dictionary: every key has a non-empty list of
non-empty values. -/
def QsInv (d : List (List Char × List (List Char))) : Prop :=
  ∀ e ∈ d, e.2 ≠ [] ∧ ∀ w ∈ e.2, w ≠ []

theorem qsInsert_inv (d : List (List Char × List (List Char))) (name value : List Char)
    (hd : QsInv d) (hv : value ≠ []) : QsInv (qsInsert d name value) := by
  unfold qsInsert
  by_cases ha : d.any (fun e => e.1 == name) = true
  · rw [if_pos ha]
    intro e he
    rw [List.mem_map] at he
    obtain ⟨e0, he0, rfl⟩ := he
    by_cases hk : (e0.1 == name) = true
    · rw [if_pos hk]
      refine ⟨by simp, ?_⟩
      intro w hw
      rcases List.mem_append.mp hw with hw2 | hw2
      · exact (hd e0 he0).2 w hw2
      · simp at hw2; subst hw2; exact hv
    · rw [if_neg hk]
      exact hd e0 he0
  · rw [if_neg ha]
    intro e he
    rcases List.mem_append.mp he with hw2 | hw2
    · exact hd e hw2
    · simp at hw2
      subst hw2
      exact ⟨by simp, by simpa using hv⟩

theorem foldl_qsInsert_inv (ps : List (List Char × List Char)) :
    ∀ d, QsInv d → (∀ p ∈ ps, p.2 ≠ []) →
      QsInv (ps.foldl (fun d nv => qsInsert d nv.1 nv.2) d) := by
  induction ps with
  | nil => intro d hd _; exact hd
  | cons p ps ih =>
    intro d hd hps
    simp only [List.foldl_cons]
    exact ih _ (qsInsert_inv d p.1 p.2 hd (hps p (by simp)))
      (fun q hq => hps q (by simp [hq]))

theorem parse_qs_inv (qs : List Char) : QsInv (parse_qs qs) :=
  foldl_qsInsert_inv (parse_qsl qs) [] (by intro e he; cases he)
    (parse_qsl_value_ne_nil qs)

theorem qsLookup_ne_nil (qs name : List Char) (vs : List (List Char))
    (h : qsLookup (parse_qs qs) name = some vs) : vs ≠ [] ∧ ∀ w ∈ vs, w ≠ [] := by
  simp only [qsLookup, Option.map_eq_some'] at h
  obtain ⟨e, he, rfl⟩ := h
  exact parse_qs_inv qs e (List.mem_of_find?_eq_some he)

/-! Branch analysis for the amended C2. -/

theorem restBranches_nil (p : ParsedUrl) (url : List Char)
    (h : restBranches p url = some []) :
    inStr (("youtu.be").data) p.netloc = true ∨
      (inStr (("youtube.com").data) p.netloc = true ∧
        inStr (("/embed/").data) p.path = true) := by
  unfold restBranches at h
  by_cases h1 : inStr (("youtu.be").data) p.netloc = true
  · exact Or.inl h1
  · rw [if_neg h1] at h
    by_cases h2 : (inStr (("youtube.com").data) p.netloc &&
        inStr (("/embed/").data) p.path) = true
    · right
      simpa [Bool.and_eq_true] using h2
    · rw [if_neg h2] at h
      exact absurd rfl (regexFallback_ne_nil url [] h)

/-- C1: for every URL string whose parsed host contains youtube.com and whose
query string yields a parameter named v, `get_video_id_from_url` returns
exactly the first v value, with no validation of its length or characters. -/
theorem c1_query_param_first_value (url : List Char) (p : ParsedUrl)
    (v : List Char) (vs : List (List Char))
    (hp : urlparse url = Except.ok p)
    (hn : inStr (("youtube.com").data) p.netloc = true)
    (hv : qsLookup (parse_qs p.query) (("v").data) = some (v :: vs)) :
    get_video_id_from_url url = some v := by
  simp only [get_video_id_from_url, hp]
  rw [if_pos hn, hv]

/-- C1 witness: a v value of three characters, shorter than the identifier
format, is returned as is. -/
theorem c1_witness :
    get_video_id_from_url (("https://www.youtube.com/watch?v=abc").data) =
      some (("abc").data) :=
  c1_query_param_first_value _
    ⟨("https").data, ("www.youtube.com").data, ("/watch").data, [], ("v=abc").data, []⟩
    (("abc").data) [] (by decide) (by decide) (by decide)

/-- C2 counterexample: on the short-link URL with an empty path the function
returns the empty string, contradicting the claim that the result is never
the empty string. -/
theorem c2_counterexample :
    get_video_id_from_url (("https://youtu.be/").data) = some [] := by decide

/-- C2 (amended): the result is either the absence value or a string, and an
empty-string result can arise only from the short-link or embed branches of
the structured parse; the query-parameter branch and the regex fallback always
produce non-empty identifiers. -/
theorem c2_amended_empty_only_shortlink_or_embed (url s : List Char)
    (h : get_video_id_from_url url = some s) (hs : s = []) :
    ∃ p, urlparse url = Except.ok p ∧
      (inStr (("youtu.be").data) p.netloc = true ∨
        (inStr (("youtube.com").data) p.netloc = true ∧
          inStr (("/embed/").data) p.path = true)) := by
  subst hs
  cases hp : urlparse url with
  | error u =>
    simp only [get_video_id_from_url, hp] at h
    exact absurd rfl (regexFallback_ne_nil url [] h)
  | ok p =>
    refine ⟨p, rfl, ?_⟩
    simp only [get_video_id_from_url, hp] at h
    by_cases hn : inStr (("youtube.com").data) p.netloc = true
    · rw [if_pos hn] at h
      cases hq : qsLookup (parse_qs p.query) (("v").data) with
      | none =>
        rw [hq] at h
        exact restBranches_nil p url h
      | some vs =>
        cases vs with
        | nil =>
          rw [hq] at h
          exact absurd rfl (regexFallback_ne_nil url [] h)
        | cons v vs2 =>
          rw [hq] at h
          have hne := (qsLookup_ne_nil p.query (("v").data) (v :: vs2) hq).2 v (by simp)
          cases h
          exact absurd rfl hne
    · rw [if_neg hn] at h
      exact restBranches_nil p url h

/-- C2 witness for the amended statement, at the counterexample input. -/
theorem c2_amended_witness :
    ∃ p, urlparse (("https://youtu.be/").data) = Except.ok p ∧
      (inStr (("youtu.be").data) p.netloc = true ∨
        (inStr (("youtube.com").data) p.netloc = true ∧
          inStr (("/embed/").data) p.path = true)) :=
  c2_amended_empty_only_shortlink_or_embed _ [] (by decide) rfl

/-- C10: a URL on a host that is not a recognised video-platform domain still
yields an eleven-character identifier through the generic regex fallback. -/
theorem c10_regex_matches_foreign_host :
    urlparse (("https://example.com/abcdefghijk").data) =
      Except.ok ⟨("https").data, ("example.com").data, ("/abcdefghijk").data, [], [], []⟩ ∧
    inStr (("youtube.com").data) (("example.com").data) = false ∧
    inStr (("youtu.be").data) (("example.com").data) = false ∧
    get_video_id_from_url (("https://example.com/abcdefghijk").data) =
      some (("abcdefghijk").data) :=
  ⟨by decide, by decide, by decide, by decide⟩

/-! Reduction helpers for `get_transcript`. -/

theorem get_transcript_pass1_some (tl : List TranscriptInfo) (v : List Char)
    (hv : v ≠ []) (d : Transcript) (es : List ApiEvent)
    (h : englishPass tl 0 = (some d, es)) :
    get_transcript (Except.ok tl) (some v) = (some d, ApiEvent.listCall :: es) := by
  simp only [get_transcript]
  rw [if_neg hv, h]

theorem get_transcript_pass1_none (tl : List TranscriptInfo) (v : List Char)
    (hv : v ≠ []) (es : List ApiEvent)
    (h : englishPass tl 0 = (none, es)) :
    get_transcript (Except.ok tl) (some v) =
      ((translatePass tl 0).1, ApiEvent.listCall :: (es ++ (translatePass tl 0).2)) := by
  simp only [get_transcript]
  rw [if_neg hv, h]

/-- C7: a missing or empty identifier makes `get_transcript` return the
absence value with no call to the external service, whatever the service
would have answered. -/
theorem c7_absent_id_no_service_call (listResult : Except Unit (List TranscriptInfo))
    (video_id : Option (List Char)) (h : video_id = none ∨ video_id = some []) :
    get_transcript listResult video_id = (none, []) := by
  rcases h with rfl | rfl
  · rfl
  · simp [get_transcript]

/-- C7 witness at the empty identifier with a service whose listing call
would raise. -/
theorem c7_witness : get_transcript (Except.error ()) (some []) = (none, []) :=
  c7_absent_id_no_service_call _ _ (Or.inr rfl)

/-- C6: no exception propagates from either function.  A parse exception turns
into the regex fallback; the result of `get_transcript` is always one of the
two plain values; a raised listing call yields the absence value after the one
service call; and a service whose every fetch and translate call raises still
yields the absence value. -/
theorem c6_exceptions_do_not_propagate :
    (∀ url, urlparse url = Except.error () →
      get_video_id_from_url url = regexFallback url) ∧
    (∀ lr vid, (get_transcript lr vid).1 = none ∨
      ∃ d, (get_transcript lr vid).1 = some d) ∧
    (∀ v : List Char, v ≠ [] →
      get_transcript (Except.error ()) (some v) = (none, [ApiEvent.listCall])) ∧
    (∀ (tl : List TranscriptInfo) (v : List Char), v ≠ [] →
      (∀ ti ∈ tl, ti.fetch = Except.error () ∧
        ∀ d, ti.translate ≠ Except.ok (Except.ok d)) →
      (get_transcript (Except.ok tl) (some v)).1 = none) := by
  refine ⟨?_, ?_, ?_, ?_⟩
  · intro url h
    simp [get_video_id_from_url, h]
  · intro lr vid
    cases hr : (get_transcript lr vid).1 with
    | none => exact Or.inl rfl
    | some d => exact Or.inr ⟨d, rfl⟩
  · intro v hv
    simp only [get_transcript]
    rw [if_neg hv]
  · intro tl v hv hall
    have h1 : (englishPass tl 0).1 = none :=
      (englishPass_none_iff tl 0).mpr (fun t ht _ => (hall t ht).1)
    have h2 : (translatePass tl 0).1 = none :=
      translatePass_none tl (fun t ht d => (hall t ht).2 d) 0
    cases hEp : englishPass tl 0 with
    | mk r1 es1 =>
      rw [hEp] at h1
      simp only at h1
      subst h1
      rw [get_transcript_pass1_none tl v hv es1 hEp]
      exact h2

/-- Descriptor whose every service interaction raises. -/
def tiDead : TranscriptInfo := ⟨[], [], Except.error (), Except.error ()⟩

/-- C6 witness: a URL on which the parser raises, a raising listing call, and
a service whose fetch and translate calls all raise. -/
theorem c6_witness :
    get_video_id_from_url (("http://[x").data) = regexFallback (("http://[x").data) ∧
    get_transcript (Except.error ()) (some [' ']) = (none, [ApiEvent.listCall]) ∧
    (get_transcript (Except.ok [tiDead]) (some [' '])).1 = none := by
  refine ⟨c6_exceptions_do_not_propagate.1 _ (by decide),
    c6_exceptions_do_not_propagate.2.2.1 _ (by decide),
    c6_exceptions_do_not_propagate.2.2.2 [tiDead] _ (by decide) ?_⟩
  intro ti hti
  simp only [List.mem_singleton] at hti
  subst hti
  exact ⟨rfl, fun d h => by simp [tiDead] at h⟩

/-- C3: with a non-empty identifier and a successful listing, the first
descriptor in service order that qualifies as English (code starts with en or
name contains english) whose fetch succeeds is returned, and whenever an
English-qualifying descriptor with a successful fetch exists, no translation
call is ever made. -/
theorem c3_english_preference (v : List Char) (hv : v ≠ [])
    (tl : List TranscriptInfo) :
    (∀ pre ti post d, tl = pre ++ ti :: post →
      (∀ t ∈ pre, isEnglishInfo t = false) →
      isEnglishInfo ti = true → ti.fetch = Except.ok d →
      (get_transcript (Except.ok tl) (some v)).1 = some d) ∧
    (∀ ti ∈ tl, isEnglishInfo ti = true → (∃ d, ti.fetch = Except.ok d) →
      ∀ k, ApiEvent.translateCall k ∉ (get_transcript (Except.ok tl) (some v)).2) := by
  constructor
  · intro pre ti post d hshape hpre hE hf
    subst hshape
    have h1 := englishPass_first pre ti post d
      (fun t ht hEt => absurd hEt (by simp [hpre t ht])) hE hf 0
    cases hEp : englishPass (pre ++ ti :: post) 0 with
    | mk r1 es1 =>
      rw [hEp] at h1
      simp only at h1
      subst h1
      rw [get_transcript_pass1_some _ v hv d es1 hEp]
  · intro ti hti hE hfok k hkmem
    cases hEp : englishPass tl 0 with
    | mk r1 es1 =>
      cases r1 with
      | none =>
        have hfe := (englishPass_none_iff tl 0).mp (by rw [hEp]) ti hti hE
        obtain ⟨d, hd⟩ := hfok
        rw [hd] at hfe
        cases hfe
      | some d =>
        rw [get_transcript_pass1_some tl v hv d es1 hEp] at hkmem
        simp only [List.mem_cons] at hkmem
        rcases hkmem with hbad | hmem
        · cases hbad
        · have hmem2 : ApiEvent.translateCall k ∈ (englishPass tl 0).2 := by
            rw [hEp]; exact hmem
          obtain ⟨k2, hk2⟩ := englishPass_events tl 0 _ hmem2
          cases hk2

/-- C3 witness: one non-English track followed by one English track; the
English content is returned and no translation call appears. -/
def segEx : Transcript := [TranscriptEntry.snippet (("hi").data)]

/-- Non-English descriptor whose fetch raises but whose translation succeeds. -/
def tiFr : TranscriptInfo :=
  ⟨("fr").data, ("French").data, Except.error (),
    Except.ok (Except.ok [TranscriptEntry.snippet (("salut").data)])⟩

/-- English descriptor with a successful fetch. -/
def tiEn : TranscriptInfo :=
  ⟨("en").data, ("English").data, Except.ok segEx, Except.error ()⟩

/-- English descriptor whose fetch raises. -/
def tiEnBad : TranscriptInfo :=
  ⟨("en").data, ("English (auto)").data, Except.error (), Except.error ()⟩

theorem c3_witness :
    (get_transcript (Except.ok [tiFr, tiEn]) (some [' '])).1 = some segEx ∧
    ApiEvent.translateCall 0 ∉ (get_transcript (Except.ok [tiFr, tiEn]) (some [' '])).2 := by
  have h := c3_english_preference [' '] (by decide) [tiFr, tiEn]
  refine ⟨h.1 [tiFr] tiEn [] segEx rfl ?_ (by decide) rfl, ?_⟩
  · intro t ht
    simp only [List.mem_singleton] at ht
    subst ht
    decide
  · exact h.2 tiEn (by simp) (by decide) ⟨segEx, rfl⟩ 0

/-- C4: a translation call can occur only when the English pass has examined
every descriptor and found none fetchable, and in that situation the
descriptors are translated in original order, every index up to the first
translatable one receives a translation request, and the first successful
translation is returned. -/
theorem c4_translation_fallback (v : List Char) (hv : v ≠ [])
    (tl : List TranscriptInfo) :
    ((∃ k, ApiEvent.translateCall k ∈ (get_transcript (Except.ok tl) (some v)).2) →
      ∀ t ∈ tl, isEnglishInfo t = true → t.fetch = Except.error ()) ∧
    (∀ pre ti post d, tl = pre ++ ti :: post →
      (∀ t ∈ tl, isEnglishInfo t = true → t.fetch = Except.error ()) →
      (∀ t ∈ pre, ∀ d2, t.translate ≠ Except.ok (Except.ok d2)) →
      ti.translate = Except.ok (Except.ok d) →
      (get_transcript (Except.ok tl) (some v)).1 = some d ∧
      ∀ j ≤ pre.length,
        ApiEvent.translateCall j ∈ (get_transcript (Except.ok tl) (some v)).2) := by
  constructor
  · intro hex
    cases hEp : englishPass tl 0 with
    | mk r1 es1 =>
      cases r1 with
      | none => exact (englishPass_none_iff tl 0).mp (by rw [hEp])
      | some d =>
        obtain ⟨k, hk⟩ := hex
        rw [get_transcript_pass1_some tl v hv d es1 hEp] at hk
        simp only [List.mem_cons] at hk
        rcases hk with hbad | hmem
        · cases hbad
        · have hmem2 : ApiEvent.translateCall k ∈ (englishPass tl 0).2 := by
            rw [hEp]; exact hmem
          obtain ⟨k2, hk2⟩ := englishPass_events tl 0 _ hmem2
          cases hk2
  · intro pre ti post d hshape hnoeng hpre hti
    have h1 : (englishPass tl 0).1 = none := (englishPass_none_iff tl 0).mpr hnoeng
    cases hEp : englishPass tl 0 with
    | mk r1 es1 =>
      rw [hEp] at h1
      simp only at h1
      subst h1
      rw [get_transcript_pass1_none tl v hv es1 hEp]
      subst hshape
      have htp := translatePass_first pre ti post d hpre hti 0
      refine ⟨htp.1, ?_⟩
      intro j hj
      have := htp.2 j hj
      rw [Nat.zero_add] at this
      exact List.mem_cons_of_mem _ (List.mem_append_right es1 this)

theorem c4_witness :
    (get_transcript (Except.ok [tiFr]) (some [' '])).1 =
      some [TranscriptEntry.snippet (("salut").data)] ∧
    ApiEvent.translateCall 0 ∈ (get_transcript (Except.ok [tiFr]) (some [' '])).2 := by
  have h := (c4_translation_fallback [' '] (by decide) [tiFr]).2 [] tiFr []
    [TranscriptEntry.snippet (("salut").data)] rfl ?_ ?_ rfl
  · exact ⟨h.1, h.2 0 (by decide)⟩
  · intro t ht
    simp only [List.mem_singleton] at ht
    subst ht
    intro hE
    decide
  · intro t ht
    cases ht

/-- C5: when an English-qualifying descriptor raises on fetch, the first pass
continues, and a later English-qualifying descriptor with a successful fetch
is returned, with no translation attempted. -/
theorem c5_continue_after_failed_fetch (v : List Char) (hv : v ≠ [])
    (pre mid post : List TranscriptInfo) (ti1 ti2 : TranscriptInfo) (d : Transcript)
    (hpre : ∀ t ∈ pre, isEnglishInfo t = true → t.fetch = Except.error ())
    (h1 : isEnglishInfo ti1 = true) (h1f : ti1.fetch = Except.error ())
    (hmid : ∀ t ∈ mid, isEnglishInfo t = true → t.fetch = Except.error ())
    (h2 : isEnglishInfo ti2 = true) (h2f : ti2.fetch = Except.ok d) :
    (get_transcript (Except.ok (pre ++ ti1 :: (mid ++ ti2 :: post))) (some v)).1 = some d ∧
    ∀ k, ApiEvent.translateCall k ∉
      (get_transcript (Except.ok (pre ++ ti1 :: (mid ++ ti2 :: post))) (some v)).2 := by
  have hall : ∀ t ∈ pre ++ ti1 :: mid, isEnglishInfo t = true → t.fetch = Except.error () := by
    intro t ht hEt
    rcases List.mem_append.mp ht with hp | hc
    · exact hpre t hp hEt
    · rcases List.mem_cons.mp hc with rfl | hm
      · exact h1f
      · exact hmid t hm hEt
  have hfirst := englishPass_first (pre ++ ti1 :: mid) ti2 post d hall h2 h2f 0
  rw [show (pre ++ ti1 :: mid) ++ ti2 :: post = pre ++ ti1 :: (mid ++ ti2 :: post) from by
    simp] at hfirst
  cases hEp : englishPass (pre ++ ti1 :: (mid ++ ti2 :: post)) 0 with
  | mk r1 es1 =>
    rw [hEp] at hfirst
    simp only at hfirst
    subst hfirst
    rw [get_transcript_pass1_some _ v hv d es1 hEp]
    refine ⟨rfl, ?_⟩
    intro k hk
    simp only [List.mem_cons] at hk
    rcases hk with hbad | hmem
    · cases hbad
    · have hmem2 : ApiEvent.translateCall k ∈
          (englishPass (pre ++ ti1 :: (mid ++ ti2 :: post)) 0).2 := by
        rw [hEp]; exact hmem
      obtain ⟨k2, hk2⟩ := englishPass_events _ 0 _ hmem2
      cases hk2

theorem c5_witness :
    (get_transcript (Except.ok [tiEnBad, tiEn]) (some [' '])).1 = some segEx ∧
    ApiEvent.translateCall 0 ∉
      (get_transcript (Except.ok [tiEnBad, tiEn]) (some [' '])).2 := by
  have h := c5_continue_after_failed_fetch [' '] (by decide) [] [] [] tiEnBad tiEn segEx
    (by intro t ht; cases ht) (by decide) rfl (by intro t ht; cases ht) (by decide) rfl
  exact ⟨h.1, h.2 0⟩

/-- C8: the prompt is the fixed header followed, for each segment in order, by
one space and that segment's text (attribute, mapping key with empty default,
or textual conversion); the empty sequence gives exactly the header, and two
one-letter dictionary segments give header, space a, space b. -/
theorem c8_prompt_shape :
    (∀ ts, generate_prompt_from_transcript ts =
      promptHeader ++ (ts.map (fun t => ' ' :: segText t)).flatten) ∧
    generate_prompt_from_transcript [] = promptHeader ∧
    generate_prompt_from_transcript
        [TranscriptEntry.dictEntry [(("text").data, ("a").data)],
          TranscriptEntry.dictEntry [(("text").data, ("b").data)]] =
      promptHeader ++ (" a b").data :=
  ⟨fun ts => foldl_promptAppend ts promptHeader, rfl, by decide⟩

/-- C9: the prompt builder never raises: its exception-transparent version
always returns the plain result, and a mapping segment without a text key
contributes exactly one space and nothing else. -/
theorem c9_never_raises :
    (∀ ts, generate_prompt_from_transcriptE ts =
      Except.ok (generate_prompt_from_transcript ts)) ∧
    (∀ es, es.find? (fun e => e.1 == ("text").data) = none →
      generate_prompt_from_transcript [TranscriptEntry.dictEntry es] =
        promptHeader ++ [' ']) := by
  constructor
  · intro ts
    exact foldlM_promptAppendE ts promptHeader
  · intro es hes
    simp [generate_prompt_from_transcript, promptAppend, dictGet, hes]

/-- C9 witness: a dictionary segment carrying only temporal metadata. -/
theorem c9_witness :
    generate_prompt_from_transcript
        [TranscriptEntry.dictEntry [(("start").data, ("0").data)]] =
      promptHeader ++ [' '] :=
  c9_never_raises.2 _ (by decide)
